import Mathlib

/-!
Verification of the data-transformation core of a hierarchical edge-bundling
chart (src/hbc.js).  The chart groups flat JSON records by categorical
columns, aggregates a metric (or a record count) per group and per pair of
groups, assembles a two-level hierarchy (root, group-column nodes, value
leaves) and a flat link list between leaves.

Shallow embedding conventions:
* a JS record (flat JSON object) is an association list from column name to
  the string coercion of its value, in key insertion order;
* JS numbers that the pipeline produces are exact integers (record counts and
  sums of parseInt results), modelled as Int; d3.sum (v3) skips NaN
  summands, so no aggregate value is ever NaN;
* fallible code paths (reading data[0] of an empty dataset, getGroups
  falling off the end and returning undefined, unresolvable key lookups)
  are modelled with Option;
* Array.prototype.sort with a consistent comparator is stable (ES2019), so
  its output is the unique stable sort; it is modelled by insertion sort
  with the relation "comparator result is at most 0".
-/

namespace HBC

/-- A record: one input row, column name to (string-coerced) value, in key
insertion order.  Mirrors a flat JSON object. -/
abbrev Record := List (String × String)

/-- Object.keys of a record: its column names in insertion order. -/
def recordKeys (r : Record) : List String :=
  r.map Prod.fst

/-- String coercion of a possibly-missing JS value: accessing an absent
column yields undefined, which coerces to the string "undefined" when used
as a d3.nest map key. -/
def jsStr (o : Option String) : String :=
  o.getD "undefined"

/-- Array.prototype.join with separator ",": absent values contribute the
empty string.  Models the implicit String(array) coercion d3.nest applies
to an array-valued key. -/
def joinComma : List String → String
  | [] => ""
  | [x] => x
  | x :: xs => x ++ "," ++ joinComma xs

/-- String.prototype.split on a comma, on the character-list level. -/
def splitCommaChars : List Char → List (List Char)
  | [] => [[]]
  | c :: cs =>
    if c = ',' then [] :: splitCommaChars cs
    else
      match splitCommaChars cs with
      | [] => [[c]]
      | p :: ps => (c :: p) :: ps

/-- JS String.prototype.split(",") (hbc.js line 371: d.key.split(",")). -/
def splitOnComma (s : String) : List String :=
  (splitCommaChars s.data).map fun cs => ⟨cs⟩

/-- JS whitespace skipped by parseInt. -/
def isJsSpace (c : Char) : Bool :=
  c = ' ' || c = '\t' || c = '\n' || c = '\r' || c = '\x0b' || c = '\x0c'

/-- Value of a decimal digit character, if it is one. -/
def decVal (c : Char) : Option Nat :=
  if '0' ≤ c ∧ c ≤ '9' then some (c.toNat - '0'.toNat) else none

/-- Value of a hexadecimal digit character, if it is one. -/
def hexVal (c : Char) : Option Nat :=
  if '0' ≤ c ∧ c ≤ '9' then some (c.toNat - '0'.toNat)
  else if 'a' ≤ c ∧ c ≤ 'f' then some (c.toNat - 'a'.toNat + 10)
  else if 'A' ≤ c ∧ c ≤ 'F' then some (c.toNat - 'A'.toNat + 10)
  else none

/-- Accumulate digit values in the given base. -/
def digitsToNat (dv : Char → Option Nat) (base : Nat) (cs : List Char) : Nat :=
  cs.foldl (fun acc c => acc * base + ((dv c).getD 0)) 0

/-- JS parseInt(s) with no radix argument: skip whitespace, optional sign,
0x/0X hexadecimal prefix, else leading decimal digits; no digits means NaN,
modelled as none (hbc.js line 438: parseInt(d[rollupColName])). -/
def parseIntJS (s : String) : Option Int :=
  let cs0 := s.data.dropWhile isJsSpace
  let sgn : Int := match cs0 with | '-' :: _ => -1 | _ => 1
  let cs1 := match cs0 with
    | '-' :: rest => rest
    | '+' :: rest => rest
    | _ => cs0
  let core : Option Nat := match cs1 with
    | '0' :: 'x' :: rest =>
      let ds := rest.takeWhile fun c => (hexVal c).isSome
      if ds = [] then none else some (digitsToNat hexVal 16 ds)
    | '0' :: 'X' :: rest =>
      let ds := rest.takeWhile fun c => (hexVal c).isSome
      if ds = [] then none else some (digitsToNat hexVal 16 ds)
    | _ =>
      let ds := cs1.takeWhile fun c => (decVal c).isSome
      if ds = [] then none else some (digitsToNat decVal 10 ds)
  core.map fun n => sgn * n

/-- The aggregation key argument of aggregateByCol: one column name or a
list of them (hbc.js line 425: isString(colName) dispatch). -/
inductive ColSpec where
  | one : String → ColSpec
  | many : List String → ColSpec

/-- The d3.nest key of a record (hbc.js lines 424-431): for a single column
the value itself (missing coerces to "undefined" as a map key); for several
columns the array of values, which the nest map coerces to its
comma-joined string (missing entries join as the empty string). -/
def nestKey : ColSpec → Record → String
  | ColSpec.one c, r => jsStr (r.lookup c)
  | ColSpec.many cs, r => joinComma (cs.map fun c => (r.lookup c).getD "")

/-- Keys in first-seen order, as produced by filling a d3.nest map. -/
def firstSeenAux (seen : List String) : List String → List String
  | [] => []
  | k :: ks =>
    if seen.contains k then firstSeenAux seen ks
    else k :: firstSeenAux (k :: seen) ks

/-- Distinct elements of a list in order of first occurrence. -/
def firstSeen (l : List String) : List String :=
  firstSeenAux [] l

/-- d3.sum (d3 v3): sums the values, skipping NaN summands (none). -/
def d3sum (l : List (Option Int)) : Int :=
  (l.filterMap id).sum

/-- The rollup applied to one group of records (hbc.js lines 433-441): a
plain record count when the metric column name is empty, otherwise the
d3.sum of parseInt over the metric column (absent values read as the
string "undefined", which does not parse). -/
def rollupFn (rollupColName : String) (leaves : List Record) : Int :=
  if rollupColName = "" then (leaves.length : Int)
  else d3sum (leaves.map fun d => parseIntJS (jsStr (d.lookup rollupColName)))

/-- One aggregate entry {key, values} produced by d3.nest entries. -/
structure Entry where
  key : String
  values : Int
  deriving DecidableEq, Repr

/-- aggregateByCol (hbc.js lines 422-443): d3.nest().key(..).rollup(..)
.entries(data).  The entries carry the distinct nest keys in first-seen
order; each group holds exactly the records with that key, in data order,
and is rolled up to a count or a metric sum. -/
def aggregateByCol (colName : ColSpec) (data : List Record) (rollupColName : String) :
    List Entry :=
  (firstSeen (data.map (nestKey colName))).map fun k =>
    { key := k
      values := rollupFn rollupColName (data.filter fun r => nestKey colName r == k) }

/-- The configuration fields that feed the data pipeline (hbc.js lines
11-36); the remaining style keys are purely visual. -/
structure Styles where
  sort : Int
  rollupColName : String
  groupColNames : List String
  groupColNamesAllExcept : List String
  deriving DecidableEq, Repr

/-- The comparator factory sortBy(key) (hbc.js lines 445-455), generic over
the projected field: returns the configured sort value when b's field
exceeds a's, 0 on ties, the negation otherwise. -/
def sortBy {α β : Type} [LinearOrder β] (sort : Int) (proj : α → β) (a b : α) : Int :=
  if proj b > proj a then sort
  else if proj b = proj a then 0
  else -sort

/-- JS Array.prototype.sort with a comparator: stable (ES2019) and therefore
the unique stable sort for a consistent comparator, modelled by insertion
sort placing a before b exactly when the comparator is at most 0. -/
def sortJS {α : Type} (cmp : α → α → Int) (l : List α) : List α :=
  List.insertionSort (fun a b => cmp a b ≤ 0) l

/-- One step of the exclude loop in getGroups (hbc.js line 389):
groups.splice(groups.indexOf(col), 1).  When col is present this removes
its first occurrence; when absent, indexOf yields -1 and splice(-1, 1)
removes the LAST element (and removes nothing from an empty array). -/
def spliceAtIndexOf (groups : List String) (col : String) : List String :=
  if groups.contains col then groups.erase col else groups.dropLast

/-- getGroups (hbc.js lines 383-393): a non-empty include-list is returned
verbatim; otherwise, with a non-empty exclude-list, the first record's keys
with each excluded name spliced out; otherwise the function falls off the
end (undefined, modelled none).  Reading data[0] of an empty dataset throws
(modelled none). -/
def getGroups (styles : Styles) (data : List Record) : Option (List String) :=
  if styles.groupColNames.length > 0 then
    some styles.groupColNames
  else if styles.groupColNamesAllExcept.length > 0 then
    match data with
    | [] => none
    | r :: _ => some (styles.groupColNamesAllExcept.foldl spliceAtIndexOf (recordKeys r))
  else
    none

/-- All ordered index pairs i < j of a list, in loop order (hbc.js lines
398-402). -/
def pairsOf : List String → List (String × String)
  | [] => []
  | g :: gs => (gs.map fun h => (g, h)) ++ pairsOf gs

/-- getGroupPairs (hbc.js lines 395-404). -/
def getGroupPairs (styles : Styles) (data : List Record) :
    Option (List (String × String)) :=
  (getGroups styles data).map pairsOf

/-- isInGroupColNames (hbc.js lines 406-412): with a non-empty include-list,
membership in it; otherwise membership outside the exclude-list (the
else-if guard tests the exclude ARRAY for truthiness, and an array is
always truthy, so this branch always answers). -/
def isInGroupColNames (styles : Styles) (col : String) : Bool :=
  if styles.groupColNames.length ≥ 1 then styles.groupColNames.contains col
  else !(styles.groupColNamesAllExcept.contains col)

/-- A group-column node: {key: column name, values: leaf entries}. -/
structure GroupNode where
  key : String
  values : List Entry
  deriving DecidableEq, Repr

/-- The hierarchy root: {key: "", values: group-column nodes}. -/
structure RootNode where
  key : String
  values : List GroupNode
  deriving DecidableEq, Repr

/-- getNodes (hbc.js lines 344-357): one group node per derived group
column, leaves aggregated by that column and sorted by value, the group
nodes themselves sorted by key (JS compares strings lexicographically by
code unit, modelled by the lexicographic order on the key's character
list); copyObj is a deep copy via JSON and is the identity on this pure
data. -/
def getNodes (styles : Styles) (data : List Record) : Option RootNode :=
  (getGroups styles data).map fun groups =>
    { key := ""
      values := sortJS (sortBy styles.sort fun g => g.key.data)
        (groups.map fun c =>
          { key := c
            values := sortJS (sortBy styles.sort Entry.values)
              (aggregateByCol (ColSpec.one c) data styles.rollupColName) }) }

/-- A node of the flattened hierarchy, as traversed by the d3 layout. -/
inductive HNode where
  | root : RootNode → HNode
  | group : GroupNode → HNode
  | leaf : Entry → HNode
  deriving DecidableEq, Repr

/-- The key of a flattened node. -/
def HNode.key : HNode → String
  | HNode.root r => r.key
  | HNode.group g => g.key
  | HNode.leaf e => e.key

/-- d3.layout.hierarchy flattening (pre-order: each node precedes its
children), with the children accessor of hbc.js lines 135-139: non-leaf
nodes expose their values array as children. -/
def flattenNodes (root : RootNode) : List HNode :=
  HNode.root root ::
    root.values.flatMap fun g => HNode.group g :: g.values.map HNode.leaf

/-- The key-to-node lookup of getLinks (hbc.js lines 363-365):
mapNameNode[n.key] = n over the flattened nodes, so the LAST node with a
given key wins. -/
def mapNameNode (nodes : List HNode) (name : String) : Option HNode :=
  nodes.reverse.find? fun n => n.key == name

/-- A link {source, target, value}; the endpoints are whatever the key
lookup produced, possibly undefined (none). -/
structure Link where
  source : Option HNode
  target : Option HNode
  value : Int
  deriving DecidableEq, Repr

/-- One link from one composite aggregate entry (hbc.js lines 370-377):
split the composite key on commas, resolve the first two parts through the
key-to-node lookup (a missing second part indexes the map with undefined,
that is with the string "undefined"). -/
def linkOfEntry (nodes : List HNode) (d : Entry) : Link :=
  let namePair := splitOnComma d.key
  { source := mapNameNode nodes (namePair.getD 0 "undefined")
    target := mapNameNode nodes (namePair.getD 1 "undefined")
    value := d.values }

/-- The links contributed by one group-column pair: aggregate by the
two-column composite key and emit one link per entry. -/
def linksForPair (styles : Styles) (data : List Record) (nodes : List HNode)
    (pair : String × String) : List Link :=
  (aggregateByCol (ColSpec.many [pair.1, pair.2]) data styles.rollupColName).map
    (linkOfEntry nodes)

/-- getLinks (hbc.js lines 359-381): links of every group pair, in pair
order. -/
def getLinks (styles : Styles) (data : List Record) (nodes : List HNode) :
    Option (List Link) :=
  (getGroupPairs styles data).map fun pairs =>
    pairs.flatMap (linksForPair styles data nodes)

/-- The render pipeline of hbc.js lines 161-162: build the hierarchy, flatten
it through the layout, then build the links against the flattened nodes. -/
def pipelineLinks (styles : Styles) (data : List Record) : Option (List Link) :=
  (getNodes styles data).bind fun root =>
    getLinks styles data (flattenNodes root)

/-- Hypothesis shape for resolvable link endpoints: the record has the
column, its value contains no comma and collides with no group-column
name. -/
def cleanValue (groups : List String) (r : Record) (c : String) : Bool :=
  match r.lookup c with
  | some v => !(v.data.contains ',') && !(groups.contains v)
  | none => false

/-! ### First-seen key order: membership and freedom from duplicates -/

theorem mem_firstSeenAux {a : String} :
    ∀ (l seen : List String), a ∈ firstSeenAux seen l ↔ a ∈ l ∧ a ∉ seen
  | [], seen => by simp [firstSeenAux]
  | k :: ks, seen => by
    by_cases h : seen.contains k
    · rw [show firstSeenAux seen (k :: ks) = firstSeenAux seen ks by
        simp only [firstSeenAux, if_pos h]]
      rw [mem_firstSeenAux ks seen]
      have hk : k ∈ seen := by simpa using h
      constructor
      · rintro ⟨hks, hs⟩
        exact ⟨List.mem_cons_of_mem _ hks, hs⟩
      · rintro ⟨hc, hs⟩
        rcases List.mem_cons.mp hc with rfl | hks
        · exact absurd hk hs
        · exact ⟨hks, hs⟩
    · rw [show firstSeenAux seen (k :: ks) = k :: firstSeenAux (k :: seen) ks by
        simp only [firstSeenAux, if_neg h]]
      have hk : k ∉ seen := by simpa using h
      constructor
      · intro hmem
        rcases List.mem_cons.mp hmem with rfl | hmem'
        · exact ⟨List.mem_cons_self _ _, hk⟩
        · obtain ⟨hks, hs⟩ := (mem_firstSeenAux ks (k :: seen)).mp hmem'
          exact ⟨List.mem_cons_of_mem _ hks, fun hseen => hs (List.mem_cons_of_mem _ hseen)⟩
      · rintro ⟨hc, hs⟩
        rcases List.mem_cons.mp hc with rfl | hks
        · exact List.mem_cons_self _ _
        · by_cases hak : a = k
          · exact hak ▸ List.mem_cons_self _ _
          · refine List.mem_cons_of_mem _ ((mem_firstSeenAux ks (k :: seen)).mpr ⟨hks, ?_⟩)
            intro hmem
            rcases List.mem_cons.mp hmem with h1 | h2
            · exact hak h1
            · exact hs h2

theorem nodup_firstSeenAux : ∀ (l seen : List String), (firstSeenAux seen l).Nodup
  | [], _ => by simp [firstSeenAux]
  | k :: ks, seen => by
    by_cases h : seen.contains k
    · rw [show firstSeenAux seen (k :: ks) = firstSeenAux seen ks by
        simp only [firstSeenAux, if_pos h]]
      exact nodup_firstSeenAux ks seen
    · rw [show firstSeenAux seen (k :: ks) = k :: firstSeenAux (k :: seen) ks by
        simp only [firstSeenAux, if_neg h]]
      refine List.nodup_cons.mpr ⟨?_, nodup_firstSeenAux ks (k :: seen)⟩
      intro hmem
      exact ((mem_firstSeenAux ks (k :: seen)).mp hmem).2 (List.mem_cons_self _ _)

theorem mem_firstSeen {a : String} {l : List String} : a ∈ firstSeen l ↔ a ∈ l := by
  rw [firstSeen, mem_firstSeenAux]
  simp

theorem nodup_firstSeen (l : List String) : (firstSeen l).Nodup :=
  nodup_firstSeenAux l []

/-! ### Conservation of record count across grouping -/

theorem sum_filter_counts (f : Record → String) :
    ∀ (K : List String), K.Nodup → ∀ (data : List Record), (∀ r ∈ data, f r ∈ K) →
      (K.map fun k => (data.filter fun r => f r == k).length).sum = data.length
  | [], _, data, hC => by
    have hd : data = [] := List.eq_nil_iff_forall_not_mem.mpr fun r hr => by
      simpa using hC r hr
    subst hd
    simp
  | k :: K', hN, data, hC => by
    have hkK : k ∉ K' := (List.nodup_cons.mp hN).1
    have hN' : K'.Nodup := (List.nodup_cons.mp hN).2
    have hcov' : ∀ r ∈ data.filter (fun r => !(f r == k)), f r ∈ K' := by
      intro r hr
      obtain ⟨hrd, hne⟩ := List.mem_filter.mp hr
      rcases List.mem_cons.mp (hC r hrd) with h3 | h3
      · simp [h3] at hne
      · exact h3
    have hterm : ∀ k' ∈ K',
        (data.filter fun r => f r == k')
          = (data.filter (fun r => !(f r == k))).filter (fun r => f r == k') := by
      intro k' hk'
      rw [List.filter_filter]
      apply List.filter_congr
      intro r _
      by_cases hfr : f r = k'
      · have hne : ¬ f r = k := fun hcontra => hkK ((hcontra.symm.trans hfr) ▸ hk')
        have hne' : ¬ k' = k := fun hcontra => hkK (hcontra ▸ hk')
        simp [hfr, hne, hne']
      · simp [hfr]
    have hsum := sum_filter_counts f K' hN' (data.filter (fun r => !(f r == k))) hcov'
    have hmapeq : K'.map (fun k0 => (data.filter fun r => f r == k0).length)
        = K'.map (fun k0 =>
            ((data.filter (fun r => !(f r == k))).filter (fun r => f r == k0)).length) := by
      apply List.map_congr_left
      intro k0 hk0
      rw [hterm k0 hk0]
    calc ((k :: K').map fun k0 => (data.filter fun r => f r == k0).length).sum
        = (data.filter fun r => f r == k).length
            + (K'.map fun k0 => (data.filter fun r => f r == k0).length).sum := by simp
      _ = (data.filter fun r => f r == k).length
            + (data.filter (fun r => !(f r == k))).length := by rw [hmapeq, hsum]
      _ = data.length := (List.length_eq_length_filter_add (fun r => f r == k)).symm

theorem aggregate_count_sum (colName : ColSpec) (data : List Record) :
    ((aggregateByCol colName data "").map Entry.values).sum = (data.length : Int) := by
  unfold aggregateByCol
  rw [List.map_map]
  have h1 : (Entry.values ∘ fun k =>
        (⟨k, rollupFn "" (data.filter fun r => nestKey colName r == k)⟩ : Entry))
      = fun k => ((data.filter fun r => nestKey colName r == k).length : Int) := by
    funext k
    simp [rollupFn]
  rw [h1]
  have h2 : ∀ (K : List String),
      (K.map fun k => ((data.filter fun r => nestKey colName r == k).length : Int)).sum
      = ((K.map fun k => (data.filter fun r => nestKey colName r == k).length).sum : Int) := by
    intro K
    induction K with
    | nil => simp
    | cons a l ih => simp [ih]
  rw [h2]
  norm_cast
  exact sum_filter_counts (nestKey colName) (firstSeen (data.map (nestKey colName)))
    (nodup_firstSeen _) data (fun r hr => mem_firstSeen.mpr (List.mem_map_of_mem _ hr))

/-- Claim C1: with an empty metric column (count mode), the values of the
aggregate entries of aggregateByCol sum to the number of records, for any
dataset and any grouping column or column list. -/
theorem aggregateByCol_count_conservation (colName : ColSpec) (data : List Record) :
    ((aggregateByCol colName data "").map Entry.values).sum = (data.length : Int) :=
  aggregate_count_sum colName data

/-- Claim C2: in count mode, the link values that getLinks emits for one
group-column pair (the linksForPair slice of its output) sum to the record
count, whatever the node lookup list is. -/
theorem linksForPair_count_conservation (styles : Styles) (data : List Record)
    (nodes : List HNode) (pair : String × String)
    (h : styles.rollupColName = "") :
    ((linksForPair styles data nodes pair).map Link.value).sum = (data.length : Int) := by
  unfold linksForPair
  rw [h, List.map_map]
  have hcomp : (Link.value ∘ linkOfEntry nodes) = Entry.values := by
    funext e
    rfl
  rw [hcomp]
  exact aggregate_count_sum _ data

/-- Witness for C2 at the three-record scenario dataset. -/
theorem linksForPair_count_conservation_witness :
    ((linksForPair ⟨1, "", ["A", "B"], ["salesAmount"]⟩
        [[("A", "x"), ("B", "p")], [("A", "x"), ("B", "q")], [("A", "y"), ("B", "p")]]
        [] ("A", "B")).map Link.value).sum = (3 : Int) := by
  have h := linksForPair_count_conservation ⟨1, "", ["A", "B"], ["salesAmount"]⟩
    [[("A", "x"), ("B", "p")], [("A", "x"), ("B", "q")], [("A", "y"), ("B", "p")]]
    [] ("A", "B") rfl
  simpa using h

/-! ### Shape of aggregate entries -/

theorem aggregate_mem_shape {colName : ColSpec} {data : List Record} {rollup : String}
    {e : Entry} (h : e ∈ aggregateByCol colName data rollup) :
    e.key ∈ data.map (nestKey colName)
    ∧ e.values = rollupFn rollup (data.filter fun r => nestKey colName r == e.key) := by
  unfold aggregateByCol at h
  obtain ⟨k, hk, rfl⟩ := List.mem_map.mp h
  exact ⟨mem_firstSeen.mp hk, rfl⟩

theorem aggregate_key_of_mem_data {colName : ColSpec} {data : List Record} {rollup : String}
    {r : Record} (hr : r ∈ data) :
    ∃ e ∈ aggregateByCol colName data rollup, e.key = nestKey colName r := by
  unfold aggregateByCol
  exact ⟨_, List.mem_map_of_mem _ (mem_firstSeen.mpr (List.mem_map_of_mem _ hr)), rfl⟩

theorem aggregate_count_entry_pos {colName : ColSpec} {data : List Record} {e : Entry}
    (he : e ∈ aggregateByCol colName data "") : 1 ≤ e.values := by
  obtain ⟨hkey, hval⟩ := aggregate_mem_shape he
  obtain ⟨r, hr, hfr⟩ := List.mem_map.mp hkey
  rw [hval, rollupFn, if_pos rfl]
  have hmem : r ∈ data.filter fun r0 => nestKey colName r0 == e.key := by
    rw [List.mem_filter]
    exact ⟨hr, by simpa using hfr⟩
  have hlen : 0 < (data.filter fun r0 => nestKey colName r0 == e.key).length :=
    List.length_pos.mpr (List.ne_nil_of_mem hmem)
  omega

/-! ### Destructuring the hierarchy and the link list -/

theorem sortJS_perm {α : Type} (cmp : α → α → Int) (l : List α) :
    List.Perm (sortJS cmp l) l :=
  List.perm_insertionSort _ l

theorem mem_sortJS {α : Type} {cmp : α → α → Int} {l : List α} {a : α} :
    a ∈ sortJS cmp l ↔ a ∈ l :=
  (sortJS_perm cmp l).mem_iff

theorem getNodes_eq {styles : Styles} {data : List Record} {root : RootNode}
    (h : getNodes styles data = some root) :
    ∃ groups, getGroups styles data = some groups ∧
      root = { key := ""
               values := sortJS (sortBy styles.sort fun g => g.key.data)
                 (groups.map fun c =>
                   { key := c
                     values := sortJS (sortBy styles.sort Entry.values)
                       (aggregateByCol (ColSpec.one c) data styles.rollupColName) }) } := by
  unfold getNodes at h
  rcases hg : getGroups styles data with _ | groups
  · rw [hg] at h
    simp at h
  · rw [hg] at h
    simp only [Option.map_some'] at h
    exact ⟨groups, rfl, (Option.some_inj.mp h).symm⟩

theorem mem_root_values {styles : Styles} {data : List Record} {root : RootNode}
    {g : GroupNode} (h : getNodes styles data = some root) (hg : g ∈ root.values) :
    ∃ groups, getGroups styles data = some groups ∧ g.key ∈ groups ∧
      g.values = sortJS (sortBy styles.sort Entry.values)
        (aggregateByCol (ColSpec.one g.key) data styles.rollupColName) := by
  obtain ⟨groups, hgr, rfl⟩ := getNodes_eq h
  obtain ⟨c, hc, rfl⟩ := List.mem_map.mp (mem_sortJS.mp hg)
  exact ⟨groups, hgr, hc, rfl⟩

theorem getLinks_mem {styles : Styles} {data : List Record} {nodes : List HNode}
    {links : List Link} {l : Link} (h : getLinks styles data nodes = some links)
    (hl : l ∈ links) :
    ∃ pr ∈ pairsOf ((getGroups styles data).getD []),
      ∃ e ∈ aggregateByCol (ColSpec.many [pr.1, pr.2]) data styles.rollupColName,
        l = linkOfEntry nodes e := by
  unfold getLinks getGroupPairs at h
  rcases hg : getGroups styles data with _ | groups
  · rw [hg] at h
    simp at h
  · rw [hg] at h
    simp only [Option.map_some'] at h
    rw [← Option.some_inj.mp h] at hl
    obtain ⟨pr, hpr, hlp⟩ := List.mem_flatMap.mp hl
    obtain ⟨e, he, hle⟩ := List.mem_map.mp hlp
    exact ⟨pr, by simpa [hg] using hpr, e, he, hle.symm⟩

/-- Claim C10 (implicit invariant): in count mode every aggregate entry
value is the size of a non-empty record group, hence at least 1; therefore
every leaf value of the hierarchy and every link value is an integer at
least 1.  (Integrality itself is structural here: counts are list lengths,
and d3.sum of integer parses is an integer, so the isInt(d.values) leaf
classification holds of every leaf the code builds.) -/
theorem count_mode_values_positive (styles : Styles) (data : List Record)
    (colName : ColSpec) (e0 : Entry) (root : RootNode) (g : GroupNode) (e1 : Entry)
    (links : List Link) (l : Link)
    (h : styles.rollupColName = "") :
    (e0 ∈ aggregateByCol colName data "" → 1 ≤ e0.values)
    ∧ (getNodes styles data = some root → g ∈ root.values → e1 ∈ g.values → 1 ≤ e1.values)
    ∧ (pipelineLinks styles data = some links → l ∈ links → 1 ≤ l.value) := by
  refine ⟨fun he => aggregate_count_entry_pos he, ?_, ?_⟩
  · intro hroot hg he
    obtain ⟨groups, hgr, hkey, hvals⟩ := mem_root_values hroot hg
    rw [hvals] at he
    have he' := mem_sortJS.mp he
    rw [h] at he'
    exact aggregate_count_entry_pos he'
  · intro hlinks hl
    unfold pipelineLinks at hlinks
    rcases hroot : getNodes styles data with _ | root'
    · rw [hroot] at hlinks
      simp at hlinks
    · rw [hroot] at hlinks
      simp only [Option.some_bind] at hlinks
      obtain ⟨pr, hpr, e, he, hle⟩ := getLinks_mem hlinks hl
      rw [h] at he
      rw [hle]
      exact aggregate_count_entry_pos he

/-- Witness for C10 at the three-record scenario dataset. -/
theorem count_mode_values_positive_witness :
    (({ key := "x", values := 2 } : Entry) ∈ aggregateByCol (ColSpec.one "A")
        [[("A", "x"), ("B", "p")], [("A", "x"), ("B", "q")], [("A", "y"), ("B", "p")]] ""
      → 1 ≤ (({ key := "x", values := 2 } : Entry)).values)
    ∧ (getNodes ⟨1, "", ["A", "B"], ["salesAmount"]⟩
          [[("A", "x"), ("B", "p")], [("A", "x"), ("B", "q")], [("A", "y"), ("B", "p")]]
          = some { key := ""
                   values := [ { key := "B", values := [⟨"p", 2⟩, ⟨"q", 1⟩] }
                             , { key := "A", values := [⟨"x", 2⟩, ⟨"y", 1⟩] } ] }
      → ({ key := "A", values := [⟨"x", 2⟩, ⟨"y", 1⟩] } : GroupNode)
          ∈ [ ({ key := "B", values := [⟨"p", 2⟩, ⟨"q", 1⟩] } : GroupNode)
            , { key := "A", values := [⟨"x", 2⟩, ⟨"y", 1⟩] } ]
      → ({ key := "x", values := 2 } : Entry) ∈ [(⟨"x", 2⟩ : Entry), ⟨"y", 1⟩]
      → 1 ≤ (({ key := "x", values := 2 } : Entry)).values)
    ∧ (pipelineLinks ⟨1, "", ["A", "B"], ["salesAmount"]⟩
          [[("A", "x"), ("B", "p")], [("A", "x"), ("B", "q")], [("A", "y"), ("B", "p")]]
          = some [ { source := some (HNode.leaf ⟨"x", 2⟩)
                     target := some (HNode.leaf ⟨"p", 2⟩), value := 1 }
                 , { source := some (HNode.leaf ⟨"x", 2⟩)
                     target := some (HNode.leaf ⟨"q", 1⟩), value := 1 }
                 , { source := some (HNode.leaf ⟨"y", 1⟩)
                     target := some (HNode.leaf ⟨"p", 2⟩), value := 1 } ]
      → ({ source := some (HNode.leaf ⟨"x", 2⟩)
           target := some (HNode.leaf ⟨"p", 2⟩), value := 1 } : Link)
          ∈ [ ({ source := some (HNode.leaf ⟨"x", 2⟩)
                 target := some (HNode.leaf ⟨"p", 2⟩), value := 1 } : Link)
            , { source := some (HNode.leaf ⟨"x", 2⟩)
                target := some (HNode.leaf ⟨"q", 1⟩), value := 1 }
            , { source := some (HNode.leaf ⟨"y", 1⟩)
                target := some (HNode.leaf ⟨"p", 2⟩), value := 1 } ]
      → 1 ≤ (({ source := some (HNode.leaf ⟨"x", 2⟩)
                target := some (HNode.leaf ⟨"p", 2⟩), value := 1 } : Link)).value) :=
  count_mode_values_positive ⟨1, "", ["A", "B"], ["salesAmount"]⟩
    [[("A", "x"), ("B", "p")], [("A", "x"), ("B", "q")], [("A", "y"), ("B", "p")]]
    (ColSpec.one "A") ⟨"x", 2⟩
    { key := ""
      values := [ { key := "B", values := [⟨"p", 2⟩, ⟨"q", 1⟩] }
                , { key := "A", values := [⟨"x", 2⟩, ⟨"y", 1⟩] } ] }
    { key := "A", values := [⟨"x", 2⟩, ⟨"y", 1⟩] } ⟨"x", 2⟩
    [ { source := some (HNode.leaf ⟨"x", 2⟩)
        target := some (HNode.leaf ⟨"p", 2⟩), value := 1 }
    , { source := some (HNode.leaf ⟨"x", 2⟩)
        target := some (HNode.leaf ⟨"q", 1⟩), value := 1 }
    , { source := some (HNode.leaf ⟨"y", 1⟩)
        target := some (HNode.leaf ⟨"p", 2⟩), value := 1 } ]
    { source := some (HNode.leaf ⟨"x", 2⟩)
      target := some (HNode.leaf ⟨"p", 2⟩), value := 1 }
    rfl

/-- Claim C3 (code bug): with the default configuration (empty include-list,
exclude-list ["salesAmount"]) and a first record whose columns are A and B,
getGroups returns ["A"], not ["A", "B"]: for the absent excluded name,
groups.indexOf yields -1 and groups.splice(-1, 1) removes the LAST column
instead of being the silent no-op the specification describes. -/
theorem getGroups_splice_removes_last :
    getGroups ⟨1, "", [], ["salesAmount"]⟩ [[("A", "1"), ("B", "2")]] = some ["A"] := by
  decide

/-- Claim C4 counterexample: the single group (key "k") contains a record
whose metric value "abc" does not parse (parseInt yields NaN), yet the
aggregate value is the finite number 5, not NaN: d3.sum (v3) skips NaN
summands, so a non-numeric value never corrupts the whole sum. -/
theorem aggregate_nonnumeric_not_nan :
    parseIntJS "abc" = none
    ∧ aggregateByCol (ColSpec.one "g")
        [[("g", "k"), ("v", "5")], [("g", "k"), ("v", "abc")]] "v"
        = [{ key := "k", values := 5 }] := by
  decide

/-- Claim C4 amended: for a non-empty metric column, each aggregate entry's
value equals the sum of parseInt over exactly those records of its group
whose metric value parses to an integer; records with non-numeric (or
missing) metric values are silently skipped by d3.sum and contribute
nothing, so the aggregate stays a finite integer instead of becoming NaN. -/
theorem aggregate_sum_skips_nonnumeric (colName : ColSpec) (data : List Record)
    (metricCol : String) (e : Entry) (h : metricCol ≠ "")
    (he : e ∈ aggregateByCol colName data metricCol) :
    e.values = ((data.filter fun r => nestKey colName r == e.key).filterMap
      (fun r => parseIntJS (jsStr (r.lookup metricCol)))).sum := by
  obtain ⟨hkey, hval⟩ := aggregate_mem_shape he
  rw [hval, rollupFn, if_neg h, d3sum, List.filterMap_map]
  rfl

/-- Witness for the amended C4 at the mixed numeric and non-numeric group. -/
theorem aggregate_sum_skips_nonnumeric_witness :
    (({ key := "k", values := 5 } : Entry)).values
      = (([[("g", "k"), ("v", "5")], [("g", "k"), ("v", "abc")]].filter
          fun r => nestKey (ColSpec.one "g") r == (({ key := "k", values := 5 } : Entry)).key).filterMap
        (fun r => parseIntJS (jsStr (r.lookup "v")))).sum :=
  aggregate_sum_skips_nonnumeric (ColSpec.one "g")
    [[("g", "k"), ("v", "5")], [("g", "k"), ("v", "abc")]] "v"
    { key := "k", values := 5 } (by decide) (by decide)

/-- Claim C8: the three-record scenario.  With groups [A, B] and count mode
(default sort 1), the hierarchy holds leaves x(2), y(1) under A and p(2),
q(1) under B (group nodes sorted descending by key, hence B first), and the
links for the pair (A, B) are exactly x-p, x-q and y-p, each with value
1, resolved to the corresponding leaves. -/
theorem scenario_three_records :
    getNodes ⟨1, "", ["A", "B"], ["salesAmount"]⟩
        [[("A", "x"), ("B", "p")], [("A", "x"), ("B", "q")], [("A", "y"), ("B", "p")]]
      = some { key := ""
               values := [ { key := "B", values := [⟨"p", 2⟩, ⟨"q", 1⟩] }
                         , { key := "A", values := [⟨"x", 2⟩, ⟨"y", 1⟩] } ] }
    ∧ pipelineLinks ⟨1, "", ["A", "B"], ["salesAmount"]⟩
        [[("A", "x"), ("B", "p")], [("A", "x"), ("B", "q")], [("A", "y"), ("B", "p")]]
      = some [ { source := some (HNode.leaf ⟨"x", 2⟩)
                 target := some (HNode.leaf ⟨"p", 2⟩), value := 1 }
             , { source := some (HNode.leaf ⟨"x", 2⟩)
                 target := some (HNode.leaf ⟨"q", 1⟩), value := 1 }
             , { source := some (HNode.leaf ⟨"y", 1⟩)
                 target := some (HNode.leaf ⟨"p", 2⟩), value := 1 } ] := by
  constructor
  · decide
  · decide

/-! ### Membership after the exclude-splice loop -/

theorem mem_spliceFold :
    ∀ (excl keys : List String) (col : String), keys.Nodup → excl.Nodup →
      (∀ c ∈ excl, c ∈ keys) →
      (col ∈ excl.foldl spliceAtIndexOf keys ↔ col ∈ keys ∧ col ∉ excl)
  | [], keys, col, _, _, _ => by simp
  | e :: es, keys, col, hk, he, hsub => by
    have hek : e ∈ keys := hsub e (List.mem_cons_self _ _)
    have hens : e ∉ es := (List.nodup_cons.mp he).1
    have hes : es.Nodup := (List.nodup_cons.mp he).2
    have hstep : spliceAtIndexOf keys e = keys.erase e := by
      simp only [spliceAtIndexOf]
      rw [if_pos (by simpa using hek)]
    have hk' : (keys.erase e).Nodup := hk.erase e
    have hsub' : ∀ c ∈ es, c ∈ keys.erase e := by
      intro c hc
      have hce : c ≠ e := fun hcontra => hens (hcontra ▸ hc)
      exact (List.mem_erase_of_ne hce).mpr (hsub c (List.mem_cons_of_mem _ hc))
    rw [List.foldl_cons, hstep, mem_spliceFold es (keys.erase e) col hk' hes hsub']
    rw [hk.mem_erase_iff]
    constructor
    · rintro ⟨⟨hne, hmem⟩, hnotes⟩
      refine ⟨hmem, ?_⟩
      intro hcontra
      rcases List.mem_cons.mp hcontra with h1 | h2
      · exact hne h1
      · exact hnotes h2
    · rintro ⟨hmem, hnot⟩
      exact ⟨⟨fun h1 => hnot (h1 ▸ List.mem_cons_self _ _), hmem⟩,
        fun h2 => hnot (List.mem_cons_of_mem _ h2)⟩

/-- Claim C9 counterexample: with include-list empty and exclude-list
["Z"], column B of the first record {A, B} passes isInGroupColNames, yet
getGroups returns ["A"] (the splice of the absent name "Z" removed the
column B), so the membership test disagrees with the derived group list. -/
theorem isInGroupColNames_getGroups_disagree :
    isInGroupColNames ⟨1, "", [], ["Z"]⟩ "B" = true
    ∧ getGroups ⟨1, "", [], ["Z"]⟩ [[("A", "1"), ("B", "2")]] = some ["A"]
    ∧ ("B" : String) ∉ ["A"] := by
  decide

/-- Claim C9 amended: for a column of the first record (whose column names
are duplicate-free), isInGroupColNames agrees with membership in the list
getGroups returns, PROVIDED that when the include-list is empty the
exclude-list is duplicate-free and names only columns of the first record;
without that proviso the splice-of-an-absent-name slip makes getGroups
drop a trailing column that isInGroupColNames still accepts. -/
theorem isInGroupColNames_matches_getGroups (styles : Styles) (r0 : Record)
    (rest : List Record) (col : String) (groups : List String)
    (hg : getGroups styles (r0 :: rest) = some groups)
    (hkeys : (recordKeys r0).Nodup)
    (hcol : col ∈ recordKeys r0)
    (hpre : styles.groupColNames ≠ []
      ∨ (styles.groupColNamesAllExcept.Nodup
          ∧ ∀ c ∈ styles.groupColNamesAllExcept, c ∈ recordKeys r0)) :
    (isInGroupColNames styles col = true ↔ col ∈ groups) := by
  by_cases hinc : styles.groupColNames.length > 0
  · rw [getGroups, if_pos hinc] at hg
    rw [isInGroupColNames, if_pos (by omega : styles.groupColNames.length ≥ 1)]
    rw [← Option.some_inj.mp hg]
    simp
  · rw [getGroups, if_neg hinc] at hg
    rw [isInGroupColNames, if_neg (by omega : ¬ styles.groupColNames.length ≥ 1)]
    rcases hpre with hpre | ⟨hnd, hsub⟩
    · exact absurd (List.length_pos.mpr hpre) hinc
    · by_cases hexc : styles.groupColNamesAllExcept.length > 0
      · rw [if_pos hexc] at hg
        have hgr : groups
            = styles.groupColNamesAllExcept.foldl spliceAtIndexOf (recordKeys r0) :=
          (Option.some_inj.mp hg).symm
        rw [hgr, mem_spliceFold _ _ _ hkeys hnd hsub]
        simp [hcol]
      · rw [if_neg hexc] at hg
        simp at hg

/-- Witness for the amended C9: include-list empty, exclude-list ["B"]
naming an actual column; column A agrees on both sides. -/
theorem isInGroupColNames_matches_getGroups_witness :
    (isInGroupColNames ⟨1, "", [], ["B"]⟩ "A" = true ↔ ("A" : String) ∈ ["A"]) :=
  isInGroupColNames_matches_getGroups ⟨1, "", [], ["B"]⟩ [("A", "1"), ("B", "2")] []
    "A" ["A"] (by decide) (by decide) (by decide)
    (Or.inr ⟨by decide, by decide⟩)

/-! ### The comparator and the stable sort -/

theorem sortBy_le_zero_of_pos {α β : Type} [LinearOrder β] {s : Int} (hs : 0 < s)
    (proj : α → β) (a b : α) :
    (sortBy s proj a b ≤ 0) ↔ proj b ≤ proj a := by
  unfold sortBy
  by_cases h1 : proj b > proj a
  · rw [if_pos h1]
    constructor
    · intro h2
      omega
    · intro h2
      exact absurd h2 (not_le.mpr h1)
  · rw [if_neg h1]
    by_cases h2 : proj b = proj a
    · rw [if_pos h2]
      simp [h2.le]
    · rw [if_neg h2]
      have h3 : proj b ≤ proj a := not_lt.mp h1
      simp only [h3, iff_true]
      omega

theorem sortBy_le_zero_of_neg {α β : Type} [LinearOrder β] {s : Int} (hs : s < 0)
    (proj : α → β) (a b : α) :
    (sortBy s proj a b ≤ 0) ↔ proj a ≤ proj b := by
  unfold sortBy
  by_cases h1 : proj b > proj a
  · rw [if_pos h1]
    simp only [h1.le, iff_true]
    omega
  · rw [if_neg h1]
    by_cases h2 : proj b = proj a
    · rw [if_pos h2]
      simp [h2.ge]
    · rw [if_neg h2]
      have h3 : proj b < proj a := lt_of_le_of_ne (not_lt.mp h1) h2
      constructor
      · intro h4
        omega
      · intro h4
        exact absurd h4 (not_le.mpr h3)

theorem sortBy_zero {α β : Type} [LinearOrder β] (proj : α → β) (a b : α) :
    sortBy (0 : Int) proj a b = 0 := by
  unfold sortBy
  split_ifs <;> simp

theorem sortBy_eq_zero_of_proj_eq {α β : Type} [LinearOrder β] (s : Int) (proj : α → β)
    {a b : α} (h : proj b = proj a) : sortBy s proj a b = 0 := by
  unfold sortBy
  rw [if_neg (by rw [h]; exact lt_irrefl _), if_pos h]

theorem sortJS_of_all_le {α : Type} {cmp : α → α → Int} (h : ∀ a b, cmp a b ≤ 0) :
    ∀ l : List α, sortJS cmp l = l
  | [] => rfl
  | a :: t => by
    have ht := sortJS_of_all_le h t
    unfold sortJS at ht ⊢
    rw [List.insertionSort, ht]
    cases t with
    | nil => rfl
    | cons b u =>
      show List.orderedInsert _ a (b :: u) = a :: b :: u
      rw [List.orderedInsert, if_pos (h a b)]

theorem sortJS_sortBy_pos_sorted {α β : Type} [LinearOrder β] {s : Int} (hs : 0 < s)
    (proj : α → β) (l : List α) :
    (sortJS (sortBy s proj) l).Sorted fun a b => proj b ≤ proj a := by
  unfold sortJS
  haveI htot : IsTotal α fun a b => sortBy s proj a b ≤ 0 := ⟨by
    intro a b
    rw [sortBy_le_zero_of_pos hs, sortBy_le_zero_of_pos hs]
    exact le_total (proj b) (proj a)⟩
  haveI htrans : IsTrans α fun a b => sortBy s proj a b ≤ 0 := ⟨by
    intro a b c hab hbc
    rw [sortBy_le_zero_of_pos hs] at hab hbc ⊢
    exact le_trans hbc hab⟩
  have hsorted := List.sorted_insertionSort (fun a b => sortBy s proj a b ≤ 0) l
  exact hsorted.imp fun hab => (sortBy_le_zero_of_pos hs proj _ _).mp hab

theorem sortJS_sortBy_neg_sorted {α β : Type} [LinearOrder β] {s : Int} (hs : s < 0)
    (proj : α → β) (l : List α) :
    (sortJS (sortBy s proj) l).Sorted fun a b => proj a ≤ proj b := by
  unfold sortJS
  haveI htot : IsTotal α fun a b => sortBy s proj a b ≤ 0 := ⟨by
    intro a b
    rw [sortBy_le_zero_of_neg hs, sortBy_le_zero_of_neg hs]
    exact le_total (proj a) (proj b)⟩
  haveI htrans : IsTrans α fun a b => sortBy s proj a b ≤ 0 := ⟨by
    intro a b c hab hbc
    rw [sortBy_le_zero_of_neg hs] at hab hbc ⊢
    exact le_trans hab hbc⟩
  have hsorted := List.sorted_insertionSort (fun a b => sortBy s proj a b ≤ 0) l
  exact hsorted.imp fun hab => (sortBy_le_zero_of_neg hs proj _ _).mp hab

theorem filter_orderedInsert_of_neg {α : Type} (r : α → α → Prop) [DecidableRel r]
    (p : α → Bool) (a : α) (ha : p a = false) :
    ∀ l, (List.orderedInsert r a l).filter p = l.filter p
  | [] => by simp [List.orderedInsert, ha]
  | b :: t => by
    rw [List.orderedInsert]
    by_cases h : r a b
    · rw [if_pos h]
      simp [ha]
    · rw [if_neg h]
      by_cases hb : p b
      · simp [hb, filter_orderedInsert_of_neg r p a ha t]
      · simp [hb, filter_orderedInsert_of_neg r p a ha t]

theorem filter_orderedInsert_of_pos {α : Type} (r : α → α → Prop) [DecidableRel r]
    (p : α → Bool) (a : α) (ha : p a = true) (hr : ∀ b, p b = true → r a b) :
    ∀ l, (List.orderedInsert r a l).filter p = a :: l.filter p
  | [] => by simp [List.orderedInsert, ha]
  | b :: t => by
    rw [List.orderedInsert]
    by_cases h : r a b
    · rw [if_pos h]
      simp [ha]
    · rw [if_neg h]
      have hb : p b = false := by
        by_contra hcontra
        exact h (hr b (by simpa using hcontra))
      simp [hb, filter_orderedInsert_of_pos r p a ha hr t]

theorem filter_insertionSort_eq {α : Type} (r : α → α → Prop) [DecidableRel r]
    (p : α → Bool) (hp : ∀ a b, p a = true → p b = true → r a b) :
    ∀ l : List α, (List.insertionSort r l).filter p = l.filter p
  | [] => rfl
  | a :: t => by
    rw [List.insertionSort]
    by_cases ha : p a
    · rw [filter_orderedInsert_of_pos r p a ha (fun b hb => hp a b ha hb),
        filter_insertionSort_eq r p hp t]
      simp [ha]
    · have ha' : p a = false := by simpa using ha
      rw [filter_orderedInsert_of_neg r p a ha',
        filter_insertionSort_eq r p hp t]
      simp [ha']

/-- Claim C5: sorting of the hierarchy.  With sort = 1 the group-column
nodes are in non-increasing key order (lexicographic on characters, as JS
compares strings) and each group's leaves are in non-increasing value
order; with sort = -1 both orders are non-decreasing; with sort = 0 the
comparator always returns 0 and the stable sort keeps the original
encounter order (derived group order and first-seen aggregation order).
The final two conjuncts are stability for every sort setting: group nodes
with equal keys, and leaves with equal values, keep their pre-sort relative
order. -/
theorem getNodes_sort_spec (styles : Styles) (data : List Record) (root : RootNode)
    (g : GroupNode) (groups : List String) (k : List Char) (v : Int)
    (h : getNodes styles data = some root) :
    (styles.sort = 1 →
      (root.values.Sorted fun a b => b.key.data ≤ a.key.data)
      ∧ (g ∈ root.values → g.values.Sorted fun a b => b.values ≤ a.values))
    ∧ (styles.sort = -1 →
      (root.values.Sorted fun a b => a.key.data ≤ b.key.data)
      ∧ (g ∈ root.values → g.values.Sorted fun a b => a.values ≤ b.values))
    ∧ (styles.sort = 0 → getGroups styles data = some groups →
      root.values = groups.map fun c =>
        { key := c, values := aggregateByCol (ColSpec.one c) data styles.rollupColName })
    ∧ (getGroups styles data = some groups →
      root.values.filter (fun g0 => g0.key.data == k)
        = (groups.map fun c =>
            { key := c
              values := sortJS (sortBy styles.sort Entry.values)
                (aggregateByCol (ColSpec.one c) data styles.rollupColName) }).filter
            fun g0 => g0.key.data == k)
    ∧ (g ∈ root.values →
      g.values.filter (fun e => e.values == v)
        = (aggregateByCol (ColSpec.one g.key) data styles.rollupColName).filter
            fun e => e.values == v) := by
  obtain ⟨groups0, hg0, rfl⟩ := getNodes_eq h
  refine ⟨fun hs => ⟨?_, fun hg => ?_⟩, fun hs => ⟨?_, fun hg => ?_⟩,
    fun hs hgg => ?_, fun hgg => ?_, fun hg => ?_⟩
  · dsimp only
    rw [hs]
    exact sortJS_sortBy_pos_sorted (by norm_num) _ _
  · obtain ⟨groups1, hgr1, hkey, hvals⟩ := mem_root_values h hg
    rw [hvals, hs]
    exact sortJS_sortBy_pos_sorted (by norm_num) _ _
  · dsimp only
    rw [hs]
    exact sortJS_sortBy_neg_sorted (by norm_num) _ _
  · obtain ⟨groups1, hgr1, hkey, hvals⟩ := mem_root_values h hg
    rw [hvals, hs]
    exact sortJS_sortBy_neg_sorted (by norm_num) _ _
  · rw [hg0] at hgg
    obtain rfl := Option.some_inj.mp hgg
    dsimp only
    rw [hs]
    rw [sortJS_of_all_le fun a b => le_of_eq (sortBy_zero _ a b)]
    have hinner : (fun c => GroupNode.mk c (sortJS (sortBy (0 : Int) Entry.values)
            (aggregateByCol (ColSpec.one c) data styles.rollupColName)))
        = fun c => GroupNode.mk c
            (aggregateByCol (ColSpec.one c) data styles.rollupColName) := by
      funext c
      rw [sortJS_of_all_le fun a b => le_of_eq (sortBy_zero _ a b)]
    exact congrArg (fun f => List.map f groups0) hinner
  · rw [hg0] at hgg
    obtain rfl := Option.some_inj.mp hgg
    show (sortJS (sortBy styles.sort fun g0 : GroupNode => g0.key.data) _).filter _ = _
    unfold sortJS
    apply filter_insertionSort_eq
    intro a b ha hb
    have hav : a.key.data = k := by simpa using ha
    have hbv : b.key.data = k := by simpa using hb
    exact le_of_eq (sortBy_eq_zero_of_proj_eq styles.sort
      (fun g0 : GroupNode => g0.key.data) (hbv.trans hav.symm))
  · obtain ⟨groups1, hgr1, hkey, hvals⟩ := mem_root_values h hg
    rw [hvals]
    unfold sortJS
    apply filter_insertionSort_eq
    intro a b ha hb
    have hav : a.values = v := by simpa using ha
    have hbv : b.values = v := by simpa using hb
    exact le_of_eq (sortBy_eq_zero_of_proj_eq styles.sort
      Entry.values (hbv.trans hav.symm))

/-- Witness for C5 at a one-record dataset with a single group column. -/
theorem getNodes_sort_spec_witness :
    ((1 : Int) = 1 →
      ([({ key := "A", values := [⟨"x", 1⟩] } : GroupNode)].Sorted
          fun a b => b.key.data ≤ a.key.data)
      ∧ (({ key := "A", values := [⟨"x", 1⟩] } : GroupNode)
            ∈ [({ key := "A", values := [⟨"x", 1⟩] } : GroupNode)] →
          ([(⟨"x", 1⟩ : Entry)].Sorted fun a b => b.values ≤ a.values)))
    ∧ ((1 : Int) = -1 →
      ([({ key := "A", values := [⟨"x", 1⟩] } : GroupNode)].Sorted
          fun a b => a.key.data ≤ b.key.data)
      ∧ (({ key := "A", values := [⟨"x", 1⟩] } : GroupNode)
            ∈ [({ key := "A", values := [⟨"x", 1⟩] } : GroupNode)] →
          ([(⟨"x", 1⟩ : Entry)].Sorted fun a b => a.values ≤ b.values)))
    ∧ ((1 : Int) = 0 →
      getGroups ⟨1, "", ["A"], ["salesAmount"]⟩ [[("A", "x")]] = some ["A"] →
      [({ key := "A", values := [⟨"x", 1⟩] } : GroupNode)] = ["A"].map fun c =>
        { key := c, values := aggregateByCol (ColSpec.one c) [[("A", "x")]] "" })
    ∧ (getGroups ⟨1, "", ["A"], ["salesAmount"]⟩ [[("A", "x")]] = some ["A"] →
      [({ key := "A", values := [⟨"x", 1⟩] } : GroupNode)].filter
          (fun g0 => g0.key.data == ['A'])
        = (["A"].map fun c =>
            { key := c
              values := sortJS (sortBy (1 : Int) Entry.values)
                (aggregateByCol (ColSpec.one c) [[("A", "x")]] "") }).filter
            fun g0 => g0.key.data == ['A'])
    ∧ (({ key := "A", values := [⟨"x", 1⟩] } : GroupNode)
          ∈ [({ key := "A", values := [⟨"x", 1⟩] } : GroupNode)] →
      [(⟨"x", 1⟩ : Entry)].filter (fun e => e.values == 1)
        = (aggregateByCol (ColSpec.one "A") [[("A", "x")]] "").filter
            fun e => e.values == 1) :=
  getNodes_sort_spec ⟨1, "", ["A"], ["salesAmount"]⟩ [[("A", "x")]]
    ⟨"", [⟨"A", [⟨"x", 1⟩]⟩]⟩ ⟨"A", [⟨"x", 1⟩]⟩ ["A"] ['A'] 1 (by decide)

/-! ### Splitting composite keys and resolving leaves -/

theorem splitCommaChars_no_comma :
    ∀ {cs : List Char}, cs.contains ',' = false → splitCommaChars cs = [cs]
  | [], _ => rfl
  | c :: cs, h => by
    simp only [List.contains_cons] at h
    rw [Bool.or_eq_false_iff] at h
    have h2 : ¬ c = ',' ∧ cs.contains ',' = false := by
      refine ⟨fun hcontra => ?_, h.2⟩
      rw [hcontra] at h
      simp at h
    rw [show splitCommaChars (c :: cs)
        = match splitCommaChars cs with
          | [] => [[c]]
          | p :: ps => (c :: p) :: ps by
      simp only [splitCommaChars, if_neg h2.1]]
    rw [splitCommaChars_no_comma h2.2]

theorem splitCommaChars_append :
    ∀ {xs : List Char} (ys : List Char), xs.contains ',' = false →
      splitCommaChars (xs ++ ',' :: ys) = xs :: splitCommaChars ys
  | [], ys, _ => by
    simp only [List.nil_append]
    simp [splitCommaChars]
  | x :: xs, ys, h => by
    simp only [List.contains_cons] at h
    rw [Bool.or_eq_false_iff] at h
    have h2 : ¬ x = ',' ∧ xs.contains ',' = false := by
      refine ⟨fun hcontra => ?_, h.2⟩
      rw [hcontra] at h
      simp at h
    rw [List.cons_append]
    rw [show splitCommaChars (x :: (xs ++ ',' :: ys))
        = match splitCommaChars (xs ++ ',' :: ys) with
          | [] => [[x]]
          | p :: ps => (x :: p) :: ps by
      simp only [splitCommaChars, if_neg h2.1]]
    rw [splitCommaChars_append ys h2.2]

theorem splitOnComma_pair {v1 v2 : String}
    (h1 : v1.data.contains ',' = false) (h2 : v2.data.contains ',' = false) :
    splitOnComma (v1 ++ "," ++ v2) = [v1, v2] := by
  unfold splitOnComma
  have hdata : (v1 ++ "," ++ v2).data = v1.data ++ ',' :: v2.data := by
    rw [String.data_append, String.data_append]
    show (v1.data ++ [',']) ++ v2.data = v1.data ++ ',' :: v2.data
    rw [List.append_assoc]
    rfl
  rw [hdata, splitCommaChars_append _ h1, splitCommaChars_no_comma h2]
  rfl

theorem joinComma_pair (a b : String) : joinComma [a, b] = a ++ "," ++ b := by
  rfl

theorem pairsOf_mem :
    ∀ {gs : List String} {p : String × String}, p ∈ pairsOf gs → p.1 ∈ gs ∧ p.2 ∈ gs
  | g :: gs, p, hp => by
    rw [pairsOf] at hp
    rcases List.mem_append.mp hp with h1 | h2
    · obtain ⟨h0, hh, rfl⟩ := List.mem_map.mp h1
      exact ⟨List.mem_cons_self _ _, List.mem_cons_of_mem _ hh⟩
    · have h3 := pairsOf_mem h2
      exact ⟨List.mem_cons_of_mem _ h3.1, List.mem_cons_of_mem _ h3.2⟩

theorem cleanValue_spec {groups : List String} {r : Record} {c : String}
    (h : cleanValue groups r c = true) :
    ∃ v, r.lookup c = some v ∧ v.data.contains ',' = false ∧ v ∉ groups := by
  unfold cleanValue at h
  rcases hv : r.lookup c with _ | v
  · rw [hv] at h
    simp at h
  · rw [hv] at h
    simp only [Bool.and_eq_true, Bool.not_eq_true'] at h
    refine ⟨v, rfl, h.1, ?_⟩
    intro hcontra
    have : groups.contains v = true := by simpa using hcontra
    rw [this] at h
    exact absurd h.2 (by simp)

theorem mem_flatten_tail {root : RootNode} {n : HNode}
    (hn : n ∈ root.values.flatMap fun g => HNode.group g :: g.values.map HNode.leaf) :
    (∃ g ∈ root.values, n = HNode.group g) ∨ (∃ e, n = HNode.leaf e) := by
  obtain ⟨g, hgmem, hn2⟩ := List.mem_flatMap.mp hn
  rcases List.mem_cons.mp hn2 with rfl | h3
  · exact Or.inl ⟨g, hgmem, rfl⟩
  · obtain ⟨e, _, rfl⟩ := List.mem_map.mp h3
    exact Or.inr ⟨e, rfl⟩

theorem mapNameNode_resolves_leaf {styles : Styles} {data : List Record} {root : RootNode}
    {groups : List String} {c v : String}
    (hroot : getNodes styles data = some root)
    (hg : getGroups styles data = some groups)
    (hc : c ∈ groups)
    (hv : ∃ r ∈ data, nestKey (ColSpec.one c) r = v)
    (hvg : v ∉ groups) :
    ∃ e, mapNameNode (flattenNodes root) v = some (HNode.leaf e)
      ∧ HNode.leaf e ∈ flattenNodes root := by
  obtain ⟨groups0, hg0, hrooteq⟩ := getNodes_eq hroot
  rw [hg0] at hg
  obtain rfl := Option.some_inj.mp hg
  obtain ⟨r, hr, hnk⟩ := hv
  obtain ⟨e1, he1, hkey1⟩ :=
    @aggregate_key_of_mem_data (ColSpec.one c) data styles.rollupColName r hr
  rw [hnk] at hkey1
  have hgmem : (GroupNode.mk c (sortJS (sortBy styles.sort Entry.values)
      (aggregateByCol (ColSpec.one c) data styles.rollupColName))) ∈ root.values := by
    rw [hrooteq]
    exact mem_sortJS.mpr (List.mem_map_of_mem _ hc)
  have hleafmem : HNode.leaf e1
      ∈ root.values.flatMap fun g => HNode.group g :: g.values.map HNode.leaf := by
    refine List.mem_flatMap.mpr ⟨_, hgmem, ?_⟩
    exact List.mem_cons_of_mem _ (List.mem_map_of_mem _ (mem_sortJS.mpr he1))
  have hsat : (HNode.leaf e1).key == v := by
    simpa [HNode.key] using hkey1
  unfold mapNameNode flattenNodes
  rw [List.reverse_cons, List.find?_append]
  have hfind : ((root.values.flatMap fun g =>
      HNode.group g :: g.values.map HNode.leaf).reverse.find? fun n => n.key == v).isSome := by
    rw [List.find?_isSome]
    exact ⟨_, List.mem_reverse.mpr hleafmem, hsat⟩
  obtain ⟨n, hn⟩ := Option.isSome_iff_exists.mp hfind
  rw [hn]
  have hnmem : n ∈ root.values.flatMap fun g => HNode.group g :: g.values.map HNode.leaf :=
    List.mem_reverse.mp (List.mem_of_find?_eq_some hn)
  have hnkey : n.key = v := by
    have := List.find?_some hn
    simpa using this
  rcases mem_flatten_tail hnmem with ⟨g1, hg1mem, rfl⟩ | ⟨e, rfl⟩
  · exfalso
    obtain ⟨groups1, hgr1, hkmem, _⟩ := mem_root_values hroot hg1mem
    rw [hg0] at hgr1
    obtain rfl := Option.some_inj.mp hgr1
    rw [show (HNode.group g1).key = g1.key from rfl] at hnkey
    rw [hnkey] at hkmem
    exact hvg hkmem
  · exact ⟨e, rfl, List.mem_cons_of_mem _ hnmem⟩

/-- Claim C6 counterexample: a data value containing a comma.  For the
dataset [{A:"x,y", B:"p"}] the composite key "x,y,p" splits into "x" and
"y", neither of which is a leaf key, so the emitted link has UNDEFINED
source and target (modelled none) instead of existing leaves. -/
theorem getLinks_comma_key_unresolved :
    pipelineLinks ⟨1, "", ["A", "B"], ["salesAmount"]⟩ [[("A", "x,y"), ("B", "p")]]
      = some [{ source := none, target := none, value := 1 }] := by
  decide

/-- Claim C6 amended: every link getLinks emits against the flattened
hierarchy resolves both endpoints to leaf nodes present in that hierarchy,
PROVIDED each record has every derived group column and no such value
contains a comma or collides with a group-column name.  (Without the
proviso the comma split or the last-writer-wins key lookup can miss, and
the link endpoint is undefined.) -/
theorem getLinks_endpoints_are_leaves (styles : Styles) (data : List Record)
    (groups : List String) (root : RootNode) (links : List Link) (l : Link)
    (hg : getGroups styles data = some groups)
    (hroot : getNodes styles data = some root)
    (hlinks : getLinks styles data (flattenNodes root) = some links)
    (hl : l ∈ links)
    (hclean : ∀ r ∈ data, ∀ c ∈ groups, cleanValue groups r c = true) :
    (∃ e, l.source = some (HNode.leaf e) ∧ HNode.leaf e ∈ flattenNodes root)
    ∧ (∃ e, l.target = some (HNode.leaf e) ∧ HNode.leaf e ∈ flattenNodes root) := by
  obtain ⟨pr, hpr, e, he, hle⟩ := getLinks_mem hlinks hl
  rw [hg] at hpr
  simp only [Option.getD_some] at hpr
  obtain ⟨hc1, hc2⟩ := pairsOf_mem hpr
  obtain ⟨hkey, hval⟩ := aggregate_mem_shape he
  obtain ⟨r, hr, hnk⟩ := List.mem_map.mp hkey
  obtain ⟨v1, hv1, hcomma1, hng1⟩ := cleanValue_spec (hclean r hr pr.1 hc1)
  obtain ⟨v2, hv2, hcomma2, hng2⟩ := cleanValue_spec (hclean r hr pr.2 hc2)
  have hkeyeq : e.key = v1 ++ "," ++ v2 := by
    rw [← hnk]
    show joinComma ([pr.1, pr.2].map fun c => (r.lookup c).getD "") = _
    simp only [List.map_cons, List.map_nil, hv1, hv2, Option.getD_some]
    rfl
  have hsplit : splitOnComma e.key = [v1, v2] := by
    rw [hkeyeq]
    exact splitOnComma_pair hcomma1 hcomma2
  obtain ⟨e1, hm1, hmem1⟩ := mapNameNode_resolves_leaf hroot hg hc1
    ⟨r, hr, by
      show jsStr (r.lookup pr.1) = v1
      rw [hv1]
      rfl⟩ hng1
  obtain ⟨e2, hm2, hmem2⟩ := mapNameNode_resolves_leaf hroot hg hc2
    ⟨r, hr, by
      show jsStr (r.lookup pr.2) = v2
      rw [hv2]
      rfl⟩ hng2
  constructor
  · refine ⟨e1, ?_, hmem1⟩
    rw [hle]
    show mapNameNode (flattenNodes root) ((splitOnComma e.key).getD 0 "undefined") = _
    rw [hsplit]
    exact hm1
  · refine ⟨e2, ?_, hmem2⟩
    rw [hle]
    show mapNameNode (flattenNodes root) ((splitOnComma e.key).getD 1 "undefined") = _
    rw [hsplit]
    exact hm2

/-- Witness for the amended C6 at a comma-free one-record dataset. -/
theorem getLinks_endpoints_are_leaves_witness :
    (∃ e, some (HNode.leaf (⟨"x", 1⟩ : Entry)) = some (HNode.leaf e)
      ∧ HNode.leaf e ∈ flattenNodes ⟨"", [⟨"B", [⟨"p", 1⟩]⟩, ⟨"A", [⟨"x", 1⟩]⟩]⟩)
    ∧ (∃ e, some (HNode.leaf (⟨"p", 1⟩ : Entry)) = some (HNode.leaf e)
      ∧ HNode.leaf e ∈ flattenNodes ⟨"", [⟨"B", [⟨"p", 1⟩]⟩, ⟨"A", [⟨"x", 1⟩]⟩]⟩) :=
  getLinks_endpoints_are_leaves ⟨1, "", ["A", "B"], ["salesAmount"]⟩
    [[("A", "x"), ("B", "p")]] ["A", "B"]
    ⟨"", [⟨"B", [⟨"p", 1⟩]⟩, ⟨"A", [⟨"x", 1⟩]⟩]⟩
    [{ source := some (HNode.leaf ⟨"x", 1⟩)
       target := some (HNode.leaf ⟨"p", 1⟩), value := 1 }]
    { source := some (HNode.leaf ⟨"x", 1⟩)
      target := some (HNode.leaf ⟨"p", 1⟩), value := 1 }
    (by decide) (by decide) (by decide) (by decide) (by decide)

/-! ### Round-trip of leaf keys -/

theorem aggregate_map_key (colName : ColSpec) (data : List Record) (rollup : String) :
    (aggregateByCol colName data rollup).map Entry.key
      = firstSeen (data.map (nestKey colName)) := by
  unfold aggregateByCol
  rw [List.map_map]
  have hcomp : (Entry.key ∘ fun k =>
      Entry.mk k (rollupFn rollup (data.filter fun r => nestKey colName r == k))) = id := by
    funext k
    rfl
  rw [hcomp, List.map_id]

/-- Claim C7: for every derived group column c, the hierarchy contains a
group node keyed c, and the keys of the leaves under any group node keyed c
are exactly the distinct values column c takes over the records (a record's
value of c being its string coercion, "undefined" when the column is
absent, as the code reads it). -/
theorem leaf_keys_roundtrip (styles : Styles) (data : List Record) (groups : List String)
    (root : RootNode) (c : String) (g : GroupNode) (v : String)
    (hg : getGroups styles data = some groups)
    (hroot : getNodes styles data = some root)
    (hc : c ∈ groups) :
    (∃ g0 ∈ root.values, g0.key = c)
    ∧ (g ∈ root.values → g.key = c →
        (v ∈ g.values.map Entry.key ↔ ∃ r ∈ data, jsStr (r.lookup c) = v)) := by
  obtain ⟨groups0, hg0, hrooteq⟩ := getNodes_eq hroot
  rw [hg0] at hg
  obtain rfl := Option.some_inj.mp hg
  constructor
  · refine ⟨GroupNode.mk c (sortJS (sortBy styles.sort Entry.values)
      (aggregateByCol (ColSpec.one c) data styles.rollupColName)), ?_, rfl⟩
    rw [hrooteq]
    exact mem_sortJS.mpr (List.mem_map_of_mem _ hc)
  · intro hgmem hgkey
    obtain ⟨groups1, hgr1, hkmem, hvals⟩ := mem_root_values hroot hgmem
    rw [hvals, hgkey]
    rw [((sortJS_perm (sortBy styles.sort Entry.values)
      (aggregateByCol (ColSpec.one c) data styles.rollupColName)).map Entry.key).mem_iff]
    rw [aggregate_map_key, mem_firstSeen, List.mem_map]
    exact Iff.rfl

/-- Witness for C7 at a one-record dataset. -/
theorem leaf_keys_roundtrip_witness :
    (∃ g0 ∈ [({ key := "A", values := [⟨"x", 1⟩] } : GroupNode)], g0.key = "A")
    ∧ (({ key := "A", values := [⟨"x", 1⟩] } : GroupNode)
          ∈ [({ key := "A", values := [⟨"x", 1⟩] } : GroupNode)] →
        ("A" : String) = "A" →
        (("x" : String) ∈ [(⟨"x", 1⟩ : Entry)].map Entry.key
          ↔ ∃ r ∈ [[("A", "x")]], jsStr (r.lookup "A") = "x")) :=
  leaf_keys_roundtrip ⟨1, "", ["A"], ["salesAmount"]⟩ [[("A", "x")]] ["A"]
    ⟨"", [⟨"A", [⟨"x", 1⟩]⟩]⟩ "A" ⟨"A", [⟨"x", 1⟩]⟩ "x" rfl (by decide) (by decide)

end HBC
